import Mathlib

/-!
Shallow embedding of the sync-service core of the elastic-security-rule-disco
repository (file `sync-service/src/index.ts`): the TOML-subset detection-rule
parser `parseDetectionRule`, the array-literal helper `parseArrayValue`, the
heuristic field extractor `extractFieldsFromQuery`, the source enumerator
`getAllRuleFiles`, and the sync orchestrator `performSync`, together with
theorems settling the specification claims.

Strings are manipulated at the `List Char` level with structural recursion so
that every definition is executable and kernel-reducible.  Helpers prefixed
with `js` mirror the exact semantics of the JavaScript string primitives the
source uses: first-occurrence `String.prototype.replace` with a string
pattern, `substring` with clamping and swapping, `parseInt`, and the
truthiness of strings and numbers.
-/

/-- The single-quote character, written via its code point to keep the file
free of escape sequences inside character literals. -/
def singleQuote : Char := Char.ofNat 39

/-- Word characters of JavaScript regexes (the class `\w`):
ASCII letters, digits and underscore. -/
def isWordChar (c : Char) : Bool := c.isAlpha || c.isDigit || c = '_'

/-- Characters of the class `[a-z_]` used by the second field-extraction
pattern. -/
def isLowerUnd (c : Char) : Bool := c.isLower || c = '_'

/-- Quote characters stripped by the regex `/^["']|["']$/g`. -/
def isQuoteChar (c : Char) : Bool := c = '"' || c = singleQuote

/-- JavaScript `String.prototype.trim` over the ASCII whitespace the rule
files use (space, tab, carriage return, newline). -/
def trimChars (l : List Char) : List Char :=
  ((l.dropWhile Char.isWhitespace).reverse.dropWhile Char.isWhitespace).reverse

/-- Map to lower case, mirroring `toLowerCase` on ASCII text. -/
def toLowerChars (l : List Char) : List Char := l.map Char.toLower

/-- JavaScript `s.includes(pat)` for a string pattern. -/
def containsSub (pat : List Char) : List Char → Bool
  | [] => pat.isEmpty
  | c :: t => pat.isPrefixOf (c :: t) || containsSub pat t

/-- Index of the first occurrence of `pat`, mirroring `indexOf` for a string
pattern; `none` when the pattern does not occur. -/
def idxOfSub (pat : List Char) : List Char → Option Nat
  | [] => if pat.isEmpty then some 0 else none
  | c :: t => if pat.isPrefixOf (c :: t) then some 0 else (idxOfSub pat t).map (· + 1)

/-- JavaScript `s.replace(pat, '')` for a string pattern: remove the first
occurrence of `pat`, leaving the string unchanged when `pat` does not occur. -/
def removeFirstSub (pat : List Char) : List Char → List Char
  | [] => []
  | c :: t => if pat.isPrefixOf (c :: t) then (c :: t).drop pat.length else c :: removeFirstSub pat t

/-- Index of the first occurrence of the character `c` (the length of the
list when `c` is absent). -/
def idxOfCh (c : Char) : List Char → Nat
  | [] => 0
  | x :: t => if x = c then 0 else idxOfCh c t + 1

/-- Index of the last occurrence of the character `c`, mirroring
`lastIndexOf`; only used under a containment guard. -/
def lastIdxOfCh (c : Char) (l : List Char) : Nat :=
  l.length - 1 - idxOfCh c l.reverse

/-- JavaScript `s.substring(a, b)`: both indices are clamped to the length
and swapped when `a > b`. -/
def jsSubstring (l : List Char) (a b : Nat) : List Char :=
  let a2 := min a l.length
  let b2 := min b l.length
  (l.drop (min a2 b2)).take (max a2 b2 - min a2 b2)

/-- Accumulator loop of `jsSplitChar`; the current piece is kept reversed. -/
def jsSplitCharGo (sep : Char) : List Char → List Char → List (List Char)
  | [], acc => [acc.reverse]
  | c :: t, acc =>
    if c = sep then acc.reverse :: jsSplitCharGo sep t []
    else jsSplitCharGo sep t (c :: acc)

/-- JavaScript `s.split(sep)` for a single-character separator, as used by
`content.split('\n')` and `arrayContent.split(',')`. -/
def jsSplitChar (sep : Char) (l : List Char) : List (List Char) :=
  jsSplitCharGo sep l []

/-- Strip the quote ends as the regex `/^["']|["']$/g` does: one leading and
one trailing quote character are removed, each independently when present. -/
def stripQuoteEnds (l : List Char) : List Char :=
  let l1 := match l with
    | [] => ([] : List Char)
    | c :: t => if isQuoteChar c then t else c :: t
  match l1.getLast? with
  | none => l1
  | some c => if isQuoteChar c then l1.dropLast else l1

/-- Hexadecimal digits accepted by `parseInt` radix detection. -/
def isHexDigitCh (c : Char) : Bool :=
  c.isDigit || (c.val ≥ 97 && c.val ≤ 102) || (c.val ≥ 65 && c.val ≤ 70)

/-- Numeric value of a hexadecimal digit. -/
def hexVal (c : Char) : Nat :=
  if c.isDigit then c.toNat - 48 else if c.val ≥ 97 then c.toNat - 87 else c.toNat - 55

/-- Value of the longest prefix of digits for the given digit class; `none`
when there is no digit at all. -/
def parseDigits (isDig : Char → Bool) (digVal : Char → Nat) (base : Nat) (l : List Char) : Option Nat :=
  let ds := l.takeWhile isDig
  if ds.isEmpty then none
  else some (ds.foldl (fun acc c => acc * base + digVal c) 0)

/-- JavaScript `parseInt(s)` with the default radix: skip leading whitespace,
read an optional sign, auto-detect a hexadecimal `0x`/`0X` prefix, and parse
the longest digit prefix; `none` models `NaN`. -/
def jsParseInt (s : String) : Option Int :=
  let l := s.data.dropWhile Char.isWhitespace
  let signAndRest : Int × List Char :=
    match l with
    | [] => (1, [])
    | c :: t => if c = '-' then (-1, t) else if c = '+' then (1, t) else (1, c :: t)
  let l2 := signAndRest.2
  let core : Option Nat :=
    match l2 with
    | '0' :: x :: t =>
      if x = 'x' || x = 'X' then parseDigits isHexDigitCh hexVal 16 t
      else parseDigits Char.isDigit (fun c => c.toNat - 48) 10 l2
    | _ => parseDigits Char.isDigit (fun c => c.toNat - 48) 10 l2
  core.map (fun n => signAndRest.1 * (n : Int))

/-- JavaScript `n || d` for a parsed number that may be `NaN` (`none`):
`NaN` and `0` are falsy. -/
def jsOrInt (o : Option Int) (d : Int) : Int :=
  match o with
  | none => d
  | some n => if n = 0 then d else n

/-- JavaScript `s || d` for a possibly-absent string: `undefined` and the
empty string are falsy. -/
def jsOrStr (o : Option String) (d : String) : String :=
  match o with
  | none => d
  | some s => if s = "" then d else s

/-- Truthiness of a possibly-absent JavaScript string, as in
`rule.name && rule.name.length > 0`: present and non-empty. -/
def optTruthy (o : Option String) : Bool :=
  match o with
  | none => false
  | some s => s != ""

/-- Mirror of the tactic/technique reference records of `ThreatInfo`. -/
structure ThreatRef where
  id : String
  name : String
  reference : String
deriving DecidableEq

/-- Mirror of the technique records of `ThreatInfo`. -/
structure ThreatTechnique where
  id : String
  name : String
  reference : String
  subtechnique : Option (List ThreatRef)
deriving DecidableEq

/-- Mirror of the `ThreatInfo` interface. -/
structure ThreatInfo where
  framework : String
  tactic : Option ThreatRef
  technique : Option (List ThreatTechnique)
deriving DecidableEq

/-- The `DetectionRule` entity built by the parser.  Fields assigned in the
initial object literal are plain; fields that can remain `undefined` on the
returned object are `Option`.  The field `fromVal` mirrors the source field
`from` (renamed because `from` is reserved in Lean). -/
structure DetectionRule where
  id : String
  name : Option String
  description : Option String
  query : Option String
  language : Option String
  type : Option String
  severity : Option String
  riskScore : Option Int
  tags : List String
  references : List String
  falsePositives : List String
  threat : List ThreatInfo
  requiredFields : List String
  version : Option Int
  lastUpdated : String
  author : List String
  license : Option String
  ruleSource : String
  enabled : Bool
  integration : List String
  maturity : Option String
  creationDate : Option String
  updatedDate : Option String
  fromVal : Option String
  index : List String
  timestampOverride : Option String
  ruleId : Option String
  note : Option String
deriving DecidableEq

/-- Shape test for the regex `/^\d{4}\/\d{2}\/\d{2}$/`. -/
def isSlashDate (l : List Char) : Bool :=
  match l with
  | [a, b, c, d, s1, e, f, s2, g, h] =>
    a.isDigit && b.isDigit && c.isDigit && d.isDigit && s1 = '/' &&
    e.isDigit && f.isDigit && s2 = '/' && g.isDigit && h.isDigit
  | _ => false

/-- Shape test for the regex `/^\d{4}-\d{2}-\d{2}$/`. -/
def isIsoDate (l : List Char) : Bool :=
  match l with
  | [a, b, c, d, s1, e, f, s2, g, h] =>
    a.isDigit && b.isDigit && c.isDigit && d.isDigit && s1 = '-' &&
    e.isDigit && f.isDigit && s2 = '-' && g.isDigit && h.isDigit
  | _ => false

/-- Mirror of `parseTomlDate`.  The fallback `new Date(dateStr)` parsing done
by the host engine is abstracted as the parameter `dp` (returning the
`YYYY-MM-DD` part on success and `none` on failure); no claim depends on that
branch. -/
def parseTomlDate (dp : String → Option String) (dateStr : String) : Option String :=
  if dateStr = "" then none
  else if isSlashDate dateStr.data then
    some (String.mk (dateStr.data.map (fun c => if c = '/' then '-' else c)))
  else if isIsoDate dateStr.data then some dateStr
  else dp dateStr

/-- Mirror of `parseArrayValue`: bracketed array literals are split on commas
with each element trimmed and quote-stripped and empty elements dropped;
otherwise the single (quote-stripped) value is returned. -/
def parseArrayValue (value : String) : List String :=
  if value = "" then []
  else if value.data.contains '[' && value.data.contains ']' then
    let arrayContent := jsSubstring value.data (idxOfCh '[' value.data + 1) (lastIdxOfCh ']' value.data)
    if (trimChars arrayContent).isEmpty then []
    else
      (((jsSplitChar ',' arrayContent).map fun item => stripQuoteEnds (trimChars item)).filter
        (fun item => item.length > 0)).map String.mk
  else [String.mk (stripQuoteEnds value.data)]

/-- Greedy consumption of the tail groups `(?:\.\w+)*` of the dotted-path
pattern: repeatedly take a dot followed by a maximal word run; returns the
consumed characters and the rest of the input. -/
def dotGroups : Nat → List Char → List Char × List Char
  | 0, l => ([], l)
  | fuel + 1, l =>
    match l with
    | '.' :: c :: t =>
      if isWordChar c then
        let run := (c :: t).takeWhile isWordChar
        let rest := (c :: t).dropWhile isWordChar
        let g := dotGroups fuel rest
        ('.' :: (run ++ g.1), g.2)
      else ([], '.' :: c :: t)
    | _ => ([], l)

/-- All matches of the pattern `/(\w+\.\w+(?:\.\w+)*)/g`: scan left to right;
at each position try a maximal word run followed by a dot and a word
character (with further dot groups consumed greedily); on success resume
after the match, on failure advance one character.  The fuel bounds the
iteration; the scan consumes at least one character per step, so the input
length is always enough fuel. -/
def scanDotted : Nat → List Char → List (List Char)
  | 0, _ => []
  | _ + 1, [] => []
  | fuel + 1, c :: t =>
    if isWordChar c then
      let run := (c :: t).takeWhile isWordChar
      let rest := (c :: t).dropWhile isWordChar
      match rest with
      | '.' :: d :: t2 =>
        if isWordChar d then
          let g := dotGroups (fuel + 1) ('.' :: d :: t2)
          (run ++ g.1) :: scanDotted fuel g.2
        else scanDotted fuel t
      | _ => scanDotted fuel t
    else scanDotted fuel t

/-- All matches of the pattern `/\b([a-z_]+):/g` (the match text includes the
colon).  The flag `prevWord` records whether the preceding character was a
word character, making the word-boundary test explicit. -/
def scanColon : Nat → Bool → List Char → List (List Char)
  | 0, _, _ => []
  | _ + 1, _, [] => []
  | fuel + 1, prevWord, c :: t =>
    if !prevWord && isLowerUnd c then
      let run := (c :: t).takeWhile isLowerUnd
      let rest := (c :: t).dropWhile isLowerUnd
      match rest with
      | ':' :: t2 => (run ++ [':']) :: scanColon fuel false t2
      | _ => scanColon fuel (isWordChar c) t
    else scanColon fuel (isWordChar c) t

/-- One step of the match-collection loop of `extractFieldsFromQuery`: drop
the first colon, trim, apply the guards, and insert into the set (which keeps
first-insertion order, as a JavaScript `Set` does). -/
def addFieldMatch (fields : List (List Char)) (m : List Char) : List (List Char) :=
  let field := trimChars (removeFirstSub [':'] m)
  if field.length > 0 && field.length > 2 && !(field.contains ' ') then
    if fields.contains field then fields else fields ++ [field]
  else fields

/-- Mirror of `extractFieldsFromQuery`: collect the matches of the two
patterns into a set and cap the result at 20 entries. -/
def extractFieldsFromQuery (query : String) : List String :=
  let q := query.data
  let ms := scanDotted q.length q ++ scanColon q.length false q
  ((ms.foldl addFieldMatch []).take 20).map String.mk

/-- The triple-double-quote delimiter of multiline strings. -/
def tripleQuote : List Char := "\"\"\"".data

/-- The mutable locals of the line loop of `parseDetectionRule`. -/
structure ParseState where
  rule : DetectionRule
  currentSection : String
  inMultilineString : Bool
  multilineBuffer : List Char
  inMetadataSection : Bool
  inRuleSection : Bool
  machineLearningJobId : String

/-- The object literal initialising the partial rule: the id is the filename
with the first occurrence of ".toml" removed (JavaScript
`filename.replace('.toml', '')`), `now` is the ingestion timestamp read from
the clock (`new Date().toISOString()`). -/
def initRule (filename now : String) : DetectionRule where
  id := String.mk (removeFirstSub ".toml".data filename.data)
  name := none
  description := none
  query := none
  language := none
  type := none
  severity := none
  riskScore := none
  tags := []
  references := []
  falsePositives := []
  threat := []
  requiredFields := []
  version := none
  lastUpdated := now
  author := []
  license := none
  ruleSource := filename
  enabled := true
  integration := []
  maturity := none
  creationDate := none
  updatedDate := none
  fromVal := none
  index := []
  timestampOverride := none
  ruleId := none
  note := none

/-- The initial loop state. -/
def initState (filename now : String) : ParseState where
  rule := initRule filename now
  currentSection := ""
  inMultilineString := false
  multilineBuffer := []
  inMetadataSection := false
  inRuleSection := false
  machineLearningJobId := ""

/-- The key switch of the `[metadata]` section. -/
def applyMetadataKey (dp : String → Option String) (r : DetectionRule)
    (key value cleanValue : String) : DetectionRule :=
  match key with
  | "creation_date" => { r with creationDate := parseTomlDate dp cleanValue }
  | "updated_date" => { r with updatedDate := parseTomlDate dp cleanValue }
  | "maturity" => { r with maturity := some cleanValue }
  | "integration" => { r with integration := parseArrayValue value }
  | _ => r

/-- The key switch of the `[rule]` section, except for
`machine_learning_job_id`, which updates a loop local rather than the rule
and is handled in `processLine`.  The key `anomaly_threshold` is accepted and
ignored, as in the source. -/
def applyRuleKey (r : DetectionRule) (key value cleanValue : String) : DetectionRule :=
  match key with
  | "name" => { r with name := some cleanValue }
  | "description" =>
    if !(containsSub tripleQuote value.data) then { r with description := some cleanValue } else r
  | "query" =>
    if !(containsSub tripleQuote value.data) then { r with query := some cleanValue } else r
  | "language" => { r with language := some cleanValue }
  | "type" => { r with type := some cleanValue }
  | "severity" => { r with severity := some cleanValue }
  | "risk_score" => { r with riskScore := some (jsOrInt (jsParseInt cleanValue) 0) }
  | "version" => { r with version := some (jsOrInt (jsParseInt cleanValue) 1) }
  | "license" => { r with license := some cleanValue }
  | "rule_id" => { r with ruleId := some cleanValue }
  | "from" => { r with fromVal := some cleanValue }
  | "timestamp_override" => { r with timestampOverride := some cleanValue }
  | "note" =>
    if !(containsSub tripleQuote value.data) then { r with note := some cleanValue } else r
  | "tags" => { r with tags := parseArrayValue value }
  | "references" => { r with references := parseArrayValue value }
  | "author" => { r with author := parseArrayValue value }
  | "false_positives" => { r with falsePositives := parseArrayValue value }
  | "index" => { r with index := parseArrayValue value }
  | _ => r

/-- Join the preceding raw lines with single spaces,
as `prevLines.join(' ')` does. -/
def joinWithSpace : List (List Char) → List Char
  | [] => []
  | [l] => l
  | l :: rest => l ++ ' ' :: joinWithSpace rest

/-- The closing-delimiter branch of the multiline-string handling: append the
line with its first triple quote removed, commit the trimmed buffer to the
remembered field, and leave capture mode. -/
def commitMultiline (st : ParseState) (line : List Char) : ParseState :=
  let buf := st.multilineBuffer ++ removeFirstSub tripleQuote line
  let committed := String.mk (trimChars buf)
  let r := st.rule
  let r2 :=
    if st.currentSection = "query" then { r with query := some committed }
    else if st.currentSection = "description" then { r with description := some committed }
    else if st.currentSection = "note" then { r with note := some committed }
    else r
  { st with rule := r2, inMultilineString := false, multilineBuffer := [],
            currentSection := "" }

/-- The opening-delimiter branch of the multiline-string handling: start the
buffer with the line (first triple quote removed) and remember which field is
being captured by inspecting the up-to-two preceding raw lines. -/
def startMultiline (st : ParseState) (line : List Char) (prevRaw : List (List Char)) :
    ParseState :=
  let context := toLowerChars (joinWithSpace prevRaw)
  let sec :=
    if containsSub "query =".data context then "query"
    else if containsSub "description =".data context then "description"
    else if containsSub "note =".data context then "note"
    else st.currentSection
  { st with inMultilineString := true,
            multilineBuffer := removeFirstSub tripleQuote line,
            currentSection := sec }

/-- The key-value branch of the line loop: tokenize around the first " = ",
then route the key through the metadata switch and the rule switch (the
latter also handling the machine-learning job id, which is a loop local). -/
def applyKeyValue (dp : String → Option String) (st : ParseState) (line : List Char) :
    ParseState :=
  let eqIdx := (idxOfSub " = ".data line).getD 0
  let key := String.mk (trimChars (jsSubstring line 0 eqIdx))
  let valueChars := trimChars (line.drop (eqIdx + 3))
  let value := String.mk valueChars
  let cleanValue := String.mk (stripQuoteEnds valueChars)
  let st2 :=
    if st.inMetadataSection then
      { st with rule := applyMetadataKey dp st.rule key value cleanValue }
    else st
  if st2.inRuleSection then
    if key = "machine_learning_job_id" then { st2 with machineLearningJobId := cleanValue }
    else { st2 with rule := applyRuleKey st2.rule key value cleanValue }
  else st2

/-- The body of the parser's per-line loop.  `rawLine` is the untrimmed line;
`prevRaw` holds the up-to-two preceding raw lines, mirroring
`lines.slice(Math.max(0, i-2), i)`. -/
def processLine (dp : String → Option String) (st : ParseState) (rawLine : List Char)
    (prevRaw : List (List Char)) : ParseState :=
  let line := trimChars rawLine
  if line.isEmpty then st
  else if ['#'].isPrefixOf line then st
  else if line = "[metadata]".data then
    { st with inMetadataSection := true, inRuleSection := false }
  else if line = "[rule]".data then
    { st with inMetadataSection := false, inRuleSection := true }
  else if "[[rule.".data.isPrefixOf line then
    { st with inMetadataSection := false, inRuleSection := false }
  else if containsSub tripleQuote line then
    if st.inMultilineString then commitMultiline st line
    else startMultiline st line prevRaw
  else if st.inMultilineString then
    { st with multilineBuffer := st.multilineBuffer ++ '\n' :: line }
  else if containsSub " = ".data line then applyKeyValue dp st line
  else st

/-- Maintain the sliding window of the two preceding raw lines. -/
def pushPrev (prev : List (List Char)) (l : List Char) : List (List Char) :=
  match prev with
  | [] => [l]
  | [a] => [a, l]
  | _ :: b :: _ => [b, l]

/-- Fold the line loop over all lines of the file. -/
def runLines (dp : String → Option String) : ParseState → List (List Char) → List (List Char) → ParseState
  | st, _, [] => st
  | st, prev, l :: rest => runLines dp (processLine dp st l prev) (pushPrev prev l) rest

/-- First post-loop block of `parseDetectionRule`: when no query was
captured and a machine-learning job id was seen, synthesize the query from
the job id and default the type. -/
def mlSynth (st : ParseState) : DetectionRule :=
  if !(optTruthy st.rule.query) && (st.machineLearningJobId != "") then
    { st.rule with query := some ("ML Job: " ++ st.machineLearningJobId),
                   type := some (jsOrStr st.rule.type "machine_learning") }
  else st.rule

/-- Second post-loop block: extract required fields from the query text (for
non-machine-learning rules whose required fields are still empty). -/
def withRequiredFields (ml : String) (r : DetectionRule) : DetectionRule :=
  match r.query with
  | some q =>
    if (q != "") && (ml == "") && (r.requiredFields.length == 0) then
      { r with requiredFields := extractFieldsFromQuery q }
    else r
  | none => r

/-- Final validation gate: reject unless the name is truthy and the query is
truthy or the rule is a machine-learning rule. -/
def validateRule (ml : String) (r : DetectionRule) : Option DetectionRule :=
  let hasName := optTruthy r.name
  let hasQuery := optTruthy r.query
  let isMlRule := ml != ""
  if !hasName || (!hasQuery && !isMlRule) then none else some r

/-- The post-loop phase of `parseDetectionRule`: synthesis of a query for
machine-learning rules, extraction of required fields, and the final
validation gate. -/
def postProcess (st : ParseState) : Option DetectionRule :=
  validateRule st.machineLearningJobId (withRequiredFields st.machineLearningJobId (mlSynth st))

/-- Mirror of `parseDetectionRule(content, filename)`.  The parameter `now`
models the timestamp `new Date().toISOString()` read while building the
initial object; `dp` models the host date parser behind `parseTomlDate`'s
fallback branch. -/
def parseDetectionRule (dp : String → Option String) (content filename now : String) :
    Option DetectionRule :=
  postProcess (runLines dp (initState filename now) [] (jsSplitChar '\n' content.data))

/-- A node of the remote source tree as `getAllRuleFiles` sees it: a file
entry (with its name and whether a `download_url` is present) or a directory
entry (with whether listing its contents succeeds, and the contents).  A
directory whose listing fails is logged and skipped by the source. -/
inductive FSEntry where
  | file (name : String) (hasUrl : Bool)
  | dir (listingOk : Bool) (entries : List FSEntry)

/-- Does a name carry the rule-file extension (`name.endsWith('.toml')`)? -/
def endsWithToml (name : String) : Bool :=
  ".toml".data.isSuffixOf name.data

/-- The recursive traversal of `getAllRuleFiles`: files with the rule
extension and a download url are always appended; a subdirectory is entered
only while fewer than 1000 files have been collected so far. -/
def traverseEntries : List String → List FSEntry → List String
  | acc, [] => acc
  | acc, FSEntry.file name hasUrl :: rest =>
    let acc2 := if endsWithToml name && hasUrl then acc ++ [name] else acc
    traverseEntries acc2 rest
  | acc, FSEntry.dir listingOk entries :: rest =>
    let acc2 :=
      if acc.length < 1000 then (if listingOk then traverseEntries acc entries else acc)
      else acc
    traverseEntries acc2 rest

/-- Mirror of `getAllRuleFiles`: traverse the listing of the root `rules`
directory (an unlistable root yields no files, via the same catch). -/
def getAllRuleFiles (rootListingOk : Bool) (rootEntries : List FSEntry) : List String :=
  if rootListingOk then traverseEntries [] rootEntries else []

/-- Mirror of the `SyncStats` record.  Times are the opaque clock strings of
the run. -/
structure SyncStats where
  totalFiles : Nat
  processed : Nat
  indexed : Nat
  updated : Nat
  skipped : Nat
  errors : Nat
  startTime : Option String
  endTime : Option String
  lastCommitSha : Option String
  lastSyncTime : Option String
deriving DecidableEq

/-- One enumerated file together with the behaviour of the external calls
made while processing it: whether the content fetch succeeds (and the content
it returns), whether the existence check `esClient.get` succeeds (the rule is
already indexed), and whether the upsert `esClient.index` succeeds. -/
structure FileSpec where
  name : String
  fetchOk : Bool
  content : String
  existsInStore : Bool
  indexOk : Bool
deriving DecidableEq

/-- The per-file worker of `performSync`'s batch loop.  A fetch failure is
caught by the outer per-file handler: it increments `errors` only (skipping
the `processed` increment).  On fetch success the file is parsed: a rejection
increments `skipped`; an accepted rule is upserted, incrementing `updated`
(already present), `indexed` (new) or `errors` (upsert failure); in all
fetch-success cases `processed` is then incremented. -/
def processFile (dp : String → Option String) (now : String) (s : SyncStats) (f : FileSpec) :
    SyncStats :=
  if !f.fetchOk then { s with errors := s.errors + 1 }
  else
    match parseDetectionRule dp f.content f.name now with
    | some _ =>
      let s2 :=
        if f.indexOk then
          if f.existsInStore then { s with updated := s.updated + 1 }
          else { s with indexed := s.indexed + 1 }
        else { s with errors := s.errors + 1 }
      { s2 with processed := s2.processed + 1 }
    | none =>
      let s2 := { s with skipped := s.skipped + 1 }
      { s2 with processed := s2.processed + 1 }

/-- The batch loop of `performSync` (`for (let i = 0; i < ruleFiles.length;
i += batchSize)` with `batchSize = 5`): process the files five at a time,
counting in `delays` the inter-batch pacing sleeps (`setTimeout(..., 2000)`,
executed exactly when `i + batchSize < ruleFiles.length`) and recording in
`batches` each dispatched batch in order.  The fuel is the iteration bound;
passing the file count is always enough since every iteration consumes at
least one file. -/
def syncBatches (dp : String → Option String) (now : String) :
    Nat → SyncStats → List FileSpec → Nat → List (List FileSpec) →
    SyncStats × Nat × List (List FileSpec)
  | 0, s, _, delays, batches => (s, delays, batches)
  | fuel + 1, s, remaining, delays, batches =>
    if remaining.isEmpty then (s, delays, batches)
    else
      let batch := remaining.take 5
      let s2 := batch.foldl (processFile dp now) s
      let delays2 := if 5 < remaining.length then delays + 1 else delays
      syncBatches dp now fuel s2 (remaining.drop 5) delays2 (batches ++ [batch])

/-- The environment of one `performSync` run: the behaviour of the external
collaborators.  `esConfigured` is whether the store client exists;
`rulesIndexOk` is whether creating the rules index succeeds (its failure is
rethrown, unlike the state index's); `repoOk` is whether the repository
metadata call succeeds and `repoId` the change marker it returns;
`refreshOk` is whether the final index refresh succeeds; `dp` and `now` are
the host date parser and the clock as in `parseDetectionRule`. -/
structure SyncEnv where
  esConfigured : Bool
  rulesIndexOk : Bool
  repoOk : Bool
  repoId : String
  refreshOk : Bool
  files : List FileSpec
  dp : String → Option String
  now : String

/-- The observable outcome of one `performSync` run: the thrown-or-completed
result, the final statistics, the number of pacing delays slept, the batches
dispatched (in order), and whether the checkpoint write (`saveSyncState`) was
reached. -/
structure SyncRun where
  outcome : Except String Unit
  stats : SyncStats
  delays : Nat
  batches : List (List FileSpec)
  checkpointSaved : Bool

/-- The statistics object created at the start of a run. -/
def initStats (now : String) : SyncStats where
  totalFiles := 0
  processed := 0
  indexed := 0
  updated := 0
  skipped := 0
  errors := 0
  startTime := some now
  endTime := none
  lastCommitSha := none
  lastSyncTime := none

/-- Mirror of `performSync`: schema setup, change-marker resolution,
enumeration (here the already-enumerated `env.files`), the zero-files fatal
check, the batch loop, the final refresh, and the checkpoint write.  Thrown
errors are the `Except.error` outcomes; every error path skips the
checkpoint write, sets the end time and surfaces the statistics accumulated
so far, mirroring the catch block. -/
def performSync (env : SyncEnv) : SyncRun :=
  if !env.esConfigured then
    { outcome := Except.error "Elasticsearch client not configured",
      stats := initStats env.now, delays := 0, batches := [], checkpointSaved := false }
  else
    let s0 := initStats env.now
    if !env.rulesIndexOk then
      { outcome := Except.error "Failed to create rules index",
        stats := { s0 with endTime := some env.now }, delays := 0, batches := [],
        checkpointSaved := false }
    else if !env.repoOk then
      { outcome := Except.error "GitHub repository metadata request failed",
        stats := { s0 with endTime := some env.now }, delays := 0, batches := [],
        checkpointSaved := false }
    else
      let s1 := { s0 with lastCommitSha := some env.repoId }
      let s2 := { s1 with totalFiles := env.files.length }
      if env.files.length = 0 then
        { outcome := Except.error "No rule files found. Check repository access.",
          stats := { s2 with endTime := some env.now }, delays := 0, batches := [],
          checkpointSaved := false }
      else
        let out := syncBatches env.dp env.now env.files.length s2 env.files 0 []
        if !env.refreshOk then
          { outcome := Except.error "Final index refresh failed",
            stats := { out.1 with endTime := some env.now }, delays := out.2.1,
            batches := out.2.2, checkpointSaved := false }
        else
          { outcome := Except.ok (),
            stats := { out.1 with endTime := some env.now }, delays := out.2.1,
            batches := out.2.2, checkpointSaved := true }

/-- A date-parser stub used in concrete evaluations: the host parser that
fails on every input (no claim depends on the generic date branch). -/
def dpNone : String → Option String := fun _ => none

/-- The parser state after the line loop and before post-processing;
`parseDetectionRule dp content filename now = postProcess (parseState dp
content filename now)` definitionally. -/
def parseState (dp : String → Option String) (content filename now : String) : ParseState :=
  runLines dp (initState filename now) [] (jsSplitChar '\n' content.data)

/-- Erase the ingestion timestamp, for comparing parses across clock
readings. -/
def eraseLastUpdated (r : DetectionRule) : DetectionRule := { r with lastUpdated := "" }

/-- Canonical double-quoted rendering of one array element. -/
def quoteChars (x : String) : List Char := '"' :: (x.data ++ ['"'])

/-- Join double-quoted elements with the separator ", ". -/
def joinQuoted : List String → List Char
  | [] => []
  | [x] => quoteChars x
  | x :: y :: rest => quoteChars x ++ ',' :: ' ' :: joinQuoted (y :: rest)

/-- Canonical bracketed array literal for a list of elements, as the rule
files write them. -/
def renderArrayLit (xs : List String) : String :=
  String.mk ('[' :: (joinQuoted xs ++ [']']))

/-- The rule files appearing directly in one directory listing: these are
appended by the traversal even after the collection cap is reached. -/
def topLevelRuleFiles (l : List FSEntry) : List String :=
  l.filterMap fun e =>
    match e with
    | FSEntry.file name hasUrl => if endsWithToml name && hasUrl then some name else none
    | FSEntry.dir _ _ => none

/-- Fixture: a rule file whose name and (non-triple-quoted) query parse. -/
def contentNQ : String := "[rule]\nname = \"r\"\nquery = \"q\""

/-- Fixture: a machine-learning rule with a job id and no query. -/
def contentML : String := "[rule]\nname = \"n\"\nmachine_learning_job_id = \"job1\""

/-- Fixture: a file whose fetch succeeds and whose empty content is rejected
by the parser (counted as skipped). -/
def skipFile : FileSpec :=
  { name := "a.toml", fetchOk := true, content := "", existsInStore := false, indexOk := true }

/-- Fixture: a file whose fetch fails. -/
def badFetchFile : FileSpec :=
  { name := "b.toml", fetchOk := false, content := "", existsInStore := false, indexOk := true }

/-- Fixture: a fetchable, parseable file not yet present in the store. -/
def newFile : FileSpec :=
  { name := "c.toml", fetchOk := true, content := contentNQ, existsInStore := false, indexOk := true }

/-- Fixture: a fetchable, parseable file already present in the store. -/
def updFile : FileSpec :=
  { name := "d.toml", fetchOk := true, content := contentNQ, existsInStore := true, indexOk := true }

/-- Fixture: a fetchable, parseable file whose upsert fails. -/
def idxFailFile : FileSpec :=
  { name := "e.toml", fetchOk := true, content := contentNQ, existsInStore := false, indexOk := false }

/-- Fixture environment: a healthy run over 12 files one of which fails to
fetch. -/
def env12 : SyncEnv :=
  { esConfigured := true, rulesIndexOk := true, repoOk := true, repoId := "1",
    refreshOk := true, files := badFetchFile :: List.replicate 11 skipFile,
    dp := dpNone, now := "T" }

/-- Fixture environment: a healthy run over 12 files that all fetch. -/
def env12ok : SyncEnv :=
  { esConfigured := true, rulesIndexOk := true, repoOk := true, repoId := "1",
    refreshOk := true, files := List.replicate 12 skipFile, dp := dpNone, now := "T" }

/-- Fixture environment: a healthy run whose enumeration yields no files. -/
def envEmpty : SyncEnv :=
  { esConfigured := true, rulesIndexOk := true, repoOk := true, repoId := "1",
    refreshOk := true, files := [], dp := dpNone, now := "T" }

/-- Fixture environment: a run exercising every per-file outcome. -/
def envMix : SyncEnv :=
  { esConfigured := true, rulesIndexOk := true, repoOk := true, repoId := "1",
    refreshOk := true, files := [badFetchFile, skipFile, newFile, updFile, idxFailFile],
    dp := dpNone, now := "T" }

theorem processFile_processed (dp : String → Option String) (now : String) (s : SyncStats)
    (f : FileSpec) :
    (processFile dp now s f).processed = s.processed + (if f.fetchOk then 1 else 0) := by
  obtain ⟨name, fetchOk, content, existsInStore, indexOk⟩ := f
  cases fetchOk <;> cases existsInStore <;> cases indexOk <;>
    cases hp : parseDetectionRule dp content name now <;>
    simp [processFile, hp]

theorem processFile_outcomes (dp : String → Option String) (now : String) (s : SyncStats)
    (f : FileSpec) :
    (processFile dp now s f).indexed + (processFile dp now s f).updated +
      (processFile dp now s f).skipped + (processFile dp now s f).errors =
      s.indexed + s.updated + s.skipped + s.errors + 1 := by
  obtain ⟨name, fetchOk, content, existsInStore, indexOk⟩ := f
  cases fetchOk <;> cases existsInStore <;> cases indexOk <;>
    cases hp : parseDetectionRule dp content name now <;>
    simp [processFile, hp] <;> omega

theorem processFile_totalFiles (dp : String → Option String) (now : String) (s : SyncStats)
    (f : FileSpec) :
    (processFile dp now s f).totalFiles = s.totalFiles := by
  obtain ⟨name, fetchOk, content, existsInStore, indexOk⟩ := f
  cases fetchOk <;> cases existsInStore <;> cases indexOk <;>
    cases hp : parseDetectionRule dp content name now <;>
    simp [processFile, hp]

theorem foldl_processFile_processed (dp : String → Option String) (now : String) :
    ∀ (l : List FileSpec) (s : SyncStats),
      (l.foldl (processFile dp now) s).processed = s.processed + l.countP (fun f => f.fetchOk) := by
  intro l
  induction l with
  | nil => intro s; simp
  | cons f t ih =>
    intro s
    simp only [List.foldl_cons, List.countP_cons, ih, processFile_processed]
    cases hf : f.fetchOk <;> simp [hf] <;> omega

theorem foldl_processFile_outcomes (dp : String → Option String) (now : String) :
    ∀ (l : List FileSpec) (s : SyncStats),
      (l.foldl (processFile dp now) s).indexed + (l.foldl (processFile dp now) s).updated +
        (l.foldl (processFile dp now) s).skipped + (l.foldl (processFile dp now) s).errors =
        s.indexed + s.updated + s.skipped + s.errors + l.length := by
  intro l
  induction l with
  | nil => intro s; simp
  | cons f t ih =>
    intro s
    simp only [List.foldl_cons, List.length_cons, ih, processFile_outcomes]
    omega

theorem foldl_processFile_totalFiles (dp : String → Option String) (now : String) :
    ∀ (l : List FileSpec) (s : SyncStats),
      (l.foldl (processFile dp now) s).totalFiles = s.totalFiles := by
  intro l
  induction l with
  | nil => intro s; simp
  | cons f t ih => intro s; simp only [List.foldl_cons, ih, processFile_totalFiles]

theorem syncBatches_nil (dp : String → Option String) (now : String) (fuel : Nat) (s : SyncStats)
    (d : Nat) (bs : List (List FileSpec)) :
    syncBatches dp now fuel s [] d bs = (s, d, bs) := by
  cases fuel <;> simp [syncBatches]

theorem syncBatches_step (dp : String → Option String) (now : String) (fuel : Nat) (s : SyncStats)
    (l : List FileSpec) (d : Nat) (bs : List (List FileSpec)) (h : l ≠ []) :
    syncBatches dp now (fuel + 1) s l d bs =
      syncBatches dp now fuel ((l.take 5).foldl (processFile dp now) s) (l.drop 5)
        (if 5 < l.length then d + 1 else d) (bs ++ [l.take 5]) := by
  simp [syncBatches, h]

theorem syncBatches_stats (dp : String → Option String) (now : String) :
    ∀ (fuel : Nat) (l : List FileSpec) (s : SyncStats) (d : Nat) (bs : List (List FileSpec)),
      l.length ≤ fuel →
      (syncBatches dp now fuel s l d bs).1 = l.foldl (processFile dp now) s := by
  intro fuel
  induction fuel with
  | zero =>
    intro l s d bs h
    have : l = [] := List.eq_nil_of_length_eq_zero (Nat.le_zero.mp h)
    subst this
    simp [syncBatches]
  | succ n ih =>
    intro l s d bs h
    by_cases hl : l = []
    · subst hl; simp [syncBatches_nil]
    · rw [syncBatches_step dp now n s l d bs hl]
      rw [ih (l.drop 5) _ _ _ (by simp [List.length_drop]; omega)]
      rw [← List.foldl_append]
      rw [List.take_append_drop]

theorem syncBatches_twelve (dp : String → Option String) (now : String) (s : SyncStats)
    (l : List FileSpec) (h : l.length = 12) :
    syncBatches dp now 12 s l 0 [] =
      (l.foldl (processFile dp now) s, 2, [l.take 5, (l.drop 5).take 5, l.drop 10]) := by
  have h1 : l ≠ [] := by intro e; subst e; simp at h
  have hd5 : (l.drop 5).length = 7 := by simp [h]
  have hd10 : ((l.drop 5).drop 5).length = 2 := by simp [h]
  have h2 : l.drop 5 ≠ [] := by
    intro e; rw [e] at hd5; simp at hd5
  have h3 : (l.drop 5).drop 5 ≠ [] := by
    intro e; rw [e] at hd10; simp at hd10
  have e1 : (if 5 < l.length then 0 + 1 else 0) = 1 := by rw [h]; norm_num
  have e2 : (if 5 < (l.drop 5).length then 1 + 1 else 1) = 2 := by rw [hd5]; norm_num
  have e3 : (if 5 < ((l.drop 5).drop 5).length then 2 + 1 else 2) = 2 := by rw [hd10]; norm_num
  have etake : ((l.drop 5).drop 5).take 5 = (l.drop 5).drop 5 :=
    List.take_of_length_le (by rw [hd10]; norm_num)
  have edone : ((l.drop 5).drop 5).drop 5 = [] := by
    apply List.eq_nil_of_length_eq_zero; simp [List.length_drop]; omega
  rw [syncBatches_step dp now 11 s l 0 [] h1, e1]
  rw [syncBatches_step dp now 10 _ (l.drop 5) 1 _ h2, e2]
  rw [syncBatches_step dp now 9 _ ((l.drop 5).drop 5) 2 _ h3, e3, etake, edone]
  rw [syncBatches_nil]
  refine Prod.ext ?_ (Prod.ext ?_ ?_)
  · show ((l.drop 5).drop 5).foldl (processFile dp now)
        ((l.drop 5).take 5 |>.foldl (processFile dp now) ((l.take 5).foldl (processFile dp now) s)) =
      l.foldl (processFile dp now) s
    rw [← List.foldl_append, ← List.foldl_append]
    rw [List.take_append_drop, List.take_append_drop]
  · rfl
  · show [] ++ [l.take 5] ++ [(l.drop 5).take 5] ++ [(l.drop 5).drop 5] =
      [l.take 5, (l.drop 5).take 5, l.drop 10]
    simp [List.drop_drop]

theorem performSync_run_eq (env : SyncEnv) (h1 : env.esConfigured = true)
    (h2 : env.rulesIndexOk = true) (h3 : env.repoOk = true) (hf : env.files.length ≠ 0) :
    (performSync env).stats =
      { (syncBatches env.dp env.now env.files.length
          { initStats env.now with lastCommitSha := some env.repoId, totalFiles := env.files.length }
          env.files 0 []).1 with
        endTime := some env.now } ∧
    (performSync env).delays =
      (syncBatches env.dp env.now env.files.length
        { initStats env.now with lastCommitSha := some env.repoId, totalFiles := env.files.length }
        env.files 0 []).2.1 ∧
    (performSync env).batches =
      (syncBatches env.dp env.now env.files.length
        { initStats env.now with lastCommitSha := some env.repoId, totalFiles := env.files.length }
        env.files 0 []).2.2 := by
  unfold performSync
  simp only [h1, h2, h3, Bool.not_true, Bool.false_eq_true, if_false, hf, if_neg hf]
  cases env.refreshOk <;> simp [initStats]

/-- C9: when the run reaches enumeration (store configured, schema creation
and repository metadata succeed) and zero rule files are enumerated, the run
fails fast with the fatal empty-result error: no batch is dispatched, every
per-file counter is still zero, and the checkpoint write is never reached. -/
theorem performSync_empty_fails_fast (env : SyncEnv)
    (h1 : env.esConfigured = true) (h2 : env.rulesIndexOk = true) (h3 : env.repoOk = true)
    (hfiles : env.files = []) :
    (performSync env).outcome = Except.error "No rule files found. Check repository access." ∧
    (performSync env).checkpointSaved = false ∧
    (performSync env).batches = [] ∧
    (performSync env).stats.processed = 0 ∧
    (performSync env).stats.indexed = 0 ∧
    (performSync env).stats.updated = 0 ∧
    (performSync env).stats.skipped = 0 ∧
    (performSync env).stats.errors = 0 := by
  unfold performSync
  simp [h1, h2, h3, hfiles, initStats]

/-- Witness for C9 at a concrete environment. -/
theorem performSync_empty_fails_fast_witness :
    (performSync envEmpty).outcome = Except.error "No rule files found. Check repository access." ∧
    (performSync envEmpty).checkpointSaved = false ∧
    (performSync envEmpty).batches = [] ∧
    (performSync envEmpty).stats.processed = 0 ∧
    (performSync envEmpty).stats.indexed = 0 ∧
    (performSync envEmpty).stats.updated = 0 ∧
    (performSync envEmpty).stats.skipped = 0 ∧
    (performSync envEmpty).stats.errors = 0 :=
  performSync_empty_fails_fast envEmpty rfl rfl rfl rfl

/-- C10: once a run that reaches its per-file loop completes, every
enumerated file has incremented exactly one of the four outcome counters, so
indexed + updated + skipped + errors equals totalFiles; the processed counter
instead counts exactly the files whose fetch succeeded. -/
theorem performSync_outcome_partition (env : SyncEnv)
    (h1 : env.esConfigured = true) (h2 : env.rulesIndexOk = true) (h3 : env.repoOk = true) :
    (performSync env).stats.indexed + (performSync env).stats.updated +
      (performSync env).stats.skipped + (performSync env).stats.errors =
      (performSync env).stats.totalFiles ∧
    (performSync env).stats.processed = env.files.countP (fun f => f.fetchOk) := by
  by_cases hf : env.files.length = 0
  · have hnil : env.files = [] := List.eq_nil_of_length_eq_zero hf
    unfold performSync
    simp [h1, h2, h3, hnil, initStats]
  · obtain ⟨hstats, -, -⟩ := performSync_run_eq env h1 h2 h3 hf
    rw [hstats]
    rw [syncBatches_stats env.dp env.now env.files.length env.files _ 0 [] (Nat.le_refl _)]
    constructor
    · simp only [foldl_processFile_outcomes, foldl_processFile_totalFiles]
      simp [initStats]
    · simp only [foldl_processFile_processed]
      simp [initStats]

/-- Witness for C10 at a concrete environment exercising all outcomes. -/
theorem performSync_outcome_partition_witness :
    (performSync envMix).stats.indexed + (performSync envMix).stats.updated +
      (performSync envMix).stats.skipped + (performSync envMix).stats.errors =
      (performSync envMix).stats.totalFiles ∧
    (performSync envMix).stats.processed = envMix.files.countP (fun f => f.fetchOk) :=
  performSync_outcome_partition envMix rfl rfl rfl

/-- C2 (amended): over 12 enumerated files the orchestrator dispatches 3
strictly sequential batches of sizes 5, 5 and 2 covering the files in
enumeration order, sleeps the 2-second pacing delay exactly twice (between
batches 1 and 2 and between batches 2 and 3, never after the last batch), and
the processed counter ends at the number of files whose fetch succeeded —
which is 12 exactly when every fetch succeeds.  Fetch failures suppress the
processed increment (they count only as errors), while parse rejections and
upsert failures still count towards processed. -/
theorem performSync_twelve_batches (env : SyncEnv)
    (h1 : env.esConfigured = true) (h2 : env.rulesIndexOk = true) (h3 : env.repoOk = true)
    (h12 : env.files.length = 12) :
    (performSync env).batches.map List.length = [5, 5, 2] ∧
    (performSync env).batches.flatten = env.files ∧
    (performSync env).delays = 2 ∧
    (performSync env).stats.processed = env.files.countP (fun f => f.fetchOk) := by
  have hf : env.files.length ≠ 0 := by omega
  obtain ⟨hstats, hdelays, hbatches⟩ := performSync_run_eq env h1 h2 h3 hf
  have hdd : env.files.drop 10 = (env.files.drop 5).drop 5 := by
    rw [List.drop_drop]
  refine ⟨?_, ?_, ?_, ?_⟩
  · rw [hbatches, h12, syncBatches_twelve env.dp env.now _ env.files h12]
    simp [List.length_take, List.length_drop, h12]
  · rw [hbatches, h12, syncBatches_twelve env.dp env.now _ env.files h12]
    simp only [List.flatten, List.append_nil, hdd]
    rw [List.take_append_drop, List.take_append_drop]
  · rw [hdelays, h12, syncBatches_twelve env.dp env.now _ env.files h12]
  · rw [hstats, h12, syncBatches_twelve env.dp env.now _ env.files h12]
    simp only [foldl_processFile_processed]
    simp [initStats]

/-- Witness for the amended C2 at a concrete 12-file environment in which
every fetch succeeds. -/
theorem performSync_twelve_batches_witness :
    (performSync env12ok).batches.map List.length = [5, 5, 2] ∧
    (performSync env12ok).batches.flatten = env12ok.files ∧
    (performSync env12ok).delays = 2 ∧
    (performSync env12ok).stats.processed = env12ok.files.countP (fun f => f.fetchOk) :=
  performSync_twelve_batches env12ok rfl rfl rfl (by simp [env12ok])

/-- C2 counterexample: in a concrete 12-file run in which exactly one file's
fetch fails, the batch structure and delays are as described but the
processed counter ends at 11, not 12 — so processed does not equal 12
"regardless of how many individual files error". -/
theorem performSync_twelve_processed_cex :
    (performSync env12).stats.totalFiles = 12 ∧
    (performSync env12).stats.errors = 1 ∧
    (performSync env12).delays = 2 ∧
    (performSync env12).stats.processed = 11 ∧
    (performSync env12).stats.processed ≠ 12 := by
  refine ⟨rfl, rfl, rfl, rfl, ?_⟩
  decide

theorem traverseEntries_prefix_fuel : ∀ (n : Nat) (l : List FSEntry) (acc : List String),
    sizeOf l ≤ n → acc <+: traverseEntries acc l := by
  intro n
  induction n with
  | zero =>
    intro l acc h
    exact absurd h (by cases l <;> simp)
  | succ n ih =>
    intro l acc h
    match l with
    | [] => simp [traverseEntries]
    | FSEntry.file name hasUrl :: rest =>
      have hr : sizeOf rest ≤ n := by
        simp only [List.cons.sizeOf_spec] at h
        omega
      simp only [traverseEntries]
      refine List.IsPrefix.trans ?_ (ih rest _ hr)
      split
      · exact List.prefix_append acc [name]
      · exact List.prefix_refl acc
    | FSEntry.dir listingOk entries :: rest =>
      have hr : sizeOf rest ≤ n := by
        simp only [List.cons.sizeOf_spec] at h
        omega
      have he : sizeOf entries ≤ n := by
        simp only [List.cons.sizeOf_spec, FSEntry.dir.sizeOf_spec] at h
        omega
      simp only [traverseEntries]
      refine List.IsPrefix.trans ?_ (ih rest _ hr)
      split
      · split
        · exact ih entries acc he
        · exact List.prefix_refl acc
      · exact List.prefix_refl acc

theorem traverseEntries_keeps_acc (l : List FSEntry) (acc : List String) :
    acc <+: traverseEntries acc l :=
  traverseEntries_prefix_fuel (sizeOf l) l acc (Nat.le_refl _)

theorem traverseEntries_capped : ∀ (l : List FSEntry) (acc : List String),
    1000 ≤ acc.length → traverseEntries acc l = acc ++ topLevelRuleFiles l := by
  intro l
  induction l with
  | nil => intro acc h; simp [traverseEntries, topLevelRuleFiles]
  | cons e rest ih =>
    intro acc h
    cases e with
    | file name hasUrl =>
      simp only [traverseEntries, topLevelRuleFiles, List.filterMap_cons]
      by_cases hm : (endsWithToml name && hasUrl) = true
      · rw [if_pos hm, hm]
        rw [ih (acc ++ [name]) (by simp; omega)]
        simp [topLevelRuleFiles]
      · rw [if_neg hm, if_neg hm, ih acc h]
        simp [topLevelRuleFiles]
    | dir listingOk entries =>
      simp only [traverseEntries, topLevelRuleFiles, List.filterMap_cons]
      rw [if_neg (by omega)]
      rw [ih acc h]
      simp [topLevelRuleFiles]

theorem traverseEntries_replicate_file (name : String) (h : endsWithToml name = true) :
    ∀ (n : Nat) (acc : List String),
      traverseEntries acc (List.replicate n (FSEntry.file name true)) =
        acc ++ List.replicate n name := by
  intro n
  induction n with
  | zero => intro acc; simp [traverseEntries]
  | succ k ih =>
    intro acc
    simp only [List.replicate_succ, traverseEntries]
    rw [if_pos (by simp [h])]
    rw [ih (acc ++ [name])]
    simp [List.replicate_succ]

/-- C8 counterexample: a single directory listing of 1001 rule files yields
1001 collected files — the returned list exceeds the 1000 cap, because the
cap only stops descent into subdirectories while files of an already-listed
directory are appended unconditionally. -/
theorem getAllRuleFiles_cap_cex :
    (getAllRuleFiles true (List.replicate 1001 (FSEntry.file "a.toml" true))).length = 1001 ∧
    ¬((getAllRuleFiles true (List.replicate 1001 (FSEntry.file "a.toml" true))).length ≤ 1000) := by
  have h : getAllRuleFiles true (List.replicate 1001 (FSEntry.file "a.toml" true)) =
      List.replicate 1001 "a.toml" := by
    unfold getAllRuleFiles
    rw [if_pos rfl]
    rw [traverseEntries_replicate_file "a.toml" (by decide) 1001 []]
    exact List.nil_append _
  rw [h, List.length_replicate]
  exact ⟨rfl, by omega⟩

/-- C8 (amended): the 1000-file cap guards only the descent into
subdirectories.  The collected list only ever grows (already-collected files
are always returned), and once at least 1000 files have been collected no
further directory is entered — only the rule files listed directly in the
remaining directories are still appended, so the returned list can exceed the
cap (see the counterexample). -/
theorem traverseEntries_cap_amended : ∀ (l : List FSEntry) (acc : List String),
    acc <+: traverseEntries acc l ∧
    (1000 ≤ acc.length → traverseEntries acc l = acc ++ topLevelRuleFiles l) :=
  fun l acc => ⟨traverseEntries_keeps_acc l acc, traverseEntries_capped l acc⟩

/-- Witness for the amended C8 at a saturated accumulator: the directory is
skipped but the top-level rule file is still appended. -/
theorem traverseEntries_cap_amended_witness :
    List.replicate 1000 "x" <+:
      traverseEntries (List.replicate 1000 "x")
        [FSEntry.dir true [FSEntry.file "a.toml" true], FSEntry.file "b.toml" true] ∧
    traverseEntries (List.replicate 1000 "x")
        [FSEntry.dir true [FSEntry.file "a.toml" true], FSEntry.file "b.toml" true] =
      List.replicate 1000 "x" ++
        topLevelRuleFiles [FSEntry.dir true [FSEntry.file "a.toml" true],
          FSEntry.file "b.toml" true] :=
  ⟨(traverseEntries_cap_amended _ _).1,
   (traverseEntries_cap_amended _ _).2 (by rw [List.length_replicate])⟩

theorem mlJobQuery_ne_empty (s : String) : ("ML Job: " ++ s) ≠ "" := by
  intro h
  have h2 := congrArg String.length h
  rw [String.length_append, show "ML Job: ".length = 8 from rfl,
    show "".length = 0 from rfl] at h2
  omega


theorem mlSynth_name (st : ParseState) : (mlSynth st).name = st.rule.name := by
  unfold mlSynth; split <;> rfl

theorem mlSynth_id (st : ParseState) : (mlSynth st).id = st.rule.id := by
  unfold mlSynth; split <;> rfl

theorem optTruthy_some (s : String) : optTruthy (some s) = (s != "") := rfl

theorem mlSynth_query_truthy (st : ParseState) :
    optTruthy (mlSynth st).query =
      (optTruthy st.rule.query || (st.machineLearningJobId != "")) := by
  unfold mlSynth
  cases hq : optTruthy st.rule.query <;> cases hm : (st.machineLearningJobId != "") <;>
    simp [hq, hm, optTruthy_some, bne_iff_ne, mlJobQuery_ne_empty]

theorem withRF_name (ml : String) (r : DetectionRule) :
    (withRequiredFields ml r).name = r.name := by
  unfold withRequiredFields
  split
  · split <;> rfl
  · rfl

theorem withRF_query (ml : String) (r : DetectionRule) :
    (withRequiredFields ml r).query = r.query := by
  unfold withRequiredFields
  split
  · split <;> rfl
  · rfl

theorem withRF_type (ml : String) (r : DetectionRule) :
    (withRequiredFields ml r).type = r.type := by
  unfold withRequiredFields
  split
  · split <;> rfl
  · rfl

theorem withRF_id (ml : String) (r : DetectionRule) :
    (withRequiredFields ml r).id = r.id := by
  unfold withRequiredFields
  split
  · split <;> rfl
  · rfl

theorem validateRule_none_iff (ml : String) (r : DetectionRule) :
    validateRule ml r = none ↔
      (optTruthy r.name = false ∨ (optTruthy r.query = false ∧ ml = "")) := by
  unfold validateRule
  cases hn : optTruthy r.name <;> cases hq : optTruthy r.query <;>
    by_cases hm : ml = "" <;>
    simp [hn, hq, hm, bne, beq_iff_eq]

theorem validateRule_some (ml : String) (r r2 : DetectionRule)
    (h : validateRule ml r = some r2) : r2 = r := by
  have h2 : (if (!(optTruthy r.name) || (!(optTruthy r.query) && !(ml != ""))) = true then
      (none : Option DetectionRule) else some r) = some r2 := h
  split at h2
  · exact absurd h2 (by simp)
  · exact (Option.some_inj.mp h2).symm

/-- C1: in the embedding `parseDetectionRule` is a total function (malformed
input can only degrade to `none`, never to an exception), and it returns
`none` exactly when the captured name is absent or empty, or the captured
query is absent or empty and no machine-learning job id was seen in the
input. -/
theorem parseDetectionRule_none_iff (dp : String → Option String)
    (content filename now : String) :
    parseDetectionRule dp content filename now = none ↔
      (optTruthy (parseState dp content filename now).rule.name = false ∨
       (optTruthy (parseState dp content filename now).rule.query = false ∧
        (parseState dp content filename now).machineLearningJobId = "")) := by
  have hpp : parseDetectionRule dp content filename now =
      postProcess (parseState dp content filename now) := rfl
  rw [hpp]
  unfold postProcess
  rw [validateRule_none_iff, withRF_name, withRF_query, mlSynth_name, mlSynth_query_truthy]
  by_cases hm : (parseState dp content filename now).machineLearningJobId = "" <;>
    simp [hm, bne, beq_iff_eq]

theorem applyMetadataKey_id (dp : String → Option String) (r : DetectionRule)
    (key value cleanValue : String) :
    (applyMetadataKey dp r key value cleanValue).id = r.id := by
  unfold applyMetadataKey
  split <;> rfl

theorem applyRuleKey_id (r : DetectionRule) (key value cleanValue : String) :
    (applyRuleKey r key value cleanValue).id = r.id := by
  unfold applyRuleKey
  split <;> first
  | rfl
  | (split <;> rfl)

theorem commitMultiline_id (st : ParseState) (line : List Char) :
    (commitMultiline st line).rule.id = st.rule.id := by
  simp only [commitMultiline]
  repeat' split
  all_goals rfl

theorem startMultiline_rule (st : ParseState) (line : List Char) (prevRaw : List (List Char)) :
    (startMultiline st line prevRaw).rule = st.rule := rfl

theorem applyKeyValue_id (dp : String → Option String) (st : ParseState) (line : List Char) :
    (applyKeyValue dp st line).rule.id = st.rule.id := by
  simp only [applyKeyValue]
  repeat' split
  all_goals simp [applyRuleKey_id, applyMetadataKey_id]

theorem processLine_id (dp : String → Option String) (st : ParseState) (rawLine : List Char)
    (prevRaw : List (List Char)) :
    (processLine dp st rawLine prevRaw).rule.id = st.rule.id := by
  simp only [processLine]
  repeat' split
  all_goals first
  | rfl
  | simp [commitMultiline_id, startMultiline_rule, applyKeyValue_id]

theorem runLines_id (dp : String → Option String) :
    ∀ (lines : List (List Char)) (st : ParseState) (prev : List (List Char)),
      (runLines dp st prev lines).rule.id = st.rule.id := by
  intro lines
  induction lines with
  | nil => intro st prev; rfl
  | cons l rest ih =>
    intro st prev
    simp only [runLines]
    rw [ih, processLine_id]

theorem postProcess_id (st : ParseState) (r : DetectionRule) (h : postProcess st = some r) :
    r.id = st.rule.id := by
  unfold postProcess at h
  rw [validateRule_some _ _ _ h, withRF_id, mlSynth_id]

/-- C4 (amended): every accepted parse returns an entity whose id is the
filename with the FIRST occurrence of the substring ".toml" removed
(JavaScript `filename.replace('.toml', '')`); this coincides with the
filename stem exactly when the first occurrence of ".toml" is the trailing
extension, but differs on filenames such as "a.tomlb.toml". -/
theorem parseDetectionRule_id (dp : String → Option String) (content filename now : String)
    (r : DetectionRule) (h : parseDetectionRule dp content filename now = some r) :
    r.id = String.mk (removeFirstSub ".toml".data filename.data) := by
  have hpp : parseDetectionRule dp content filename now =
      postProcess (parseState dp content filename now) := rfl
  rw [hpp] at h
  rw [postProcess_id _ _ h]
  unfold parseState
  rw [runLines_id]
  rfl

/-- Witness for the amended C4 at a concrete accepted input. -/
theorem parseDetectionRule_id_witness :
    (parseDetectionRule dpNone contentNQ "x.toml" "T").map DetectionRule.id = some "x" := by
  obtain ⟨r, hr⟩ : ∃ r, parseDetectionRule dpNone contentNQ "x.toml" "T" = some r := ⟨_, rfl⟩
  rw [hr, Option.map_some']
  rw [parseDetectionRule_id dpNone contentNQ "x.toml" "T" r hr]
  rfl

/-- C4 counterexample: on the filename "a.tomlb.toml" (whose stem is
"a.tomlb") an accepted parse returns the id "ab.toml", because the source
removes the first occurrence of ".toml" anywhere in the filename rather than
the trailing extension. -/
theorem parseDetectionRule_id_cex :
    (parseDetectionRule dpNone contentNQ "a.tomlb.toml" "T").map DetectionRule.id =
      some "ab.toml" ∧ "ab.toml" ≠ "a.tomlb" := by
  constructor
  · rfl
  · decide

theorem postProcess_ml (st : ParseState) (r : DetectionRule)
    (hq : optTruthy st.rule.query = false) (hm : st.machineLearningJobId ≠ "")
    (hr : postProcess st = some r) :
    r.query = some ("ML Job: " ++ st.machineLearningJobId) ∧
    (optTruthy st.rule.type = false → r.type = some "machine_learning") := by
  unfold postProcess at hr
  have hre := validateRule_some _ _ _ hr
  have hsynth : mlSynth st =
      { st.rule with query := some ("ML Job: " ++ st.machineLearningJobId),
                     type := some (jsOrStr st.rule.type "machine_learning") } := by
    unfold mlSynth
    rw [if_pos]
    simp [hq, bne_iff_ne, hm]
  rw [hre, withRF_query, withRF_type, hsynth]
  refine ⟨rfl, fun ht => ?_⟩
  cases hty : st.rule.type with
  | none => rfl
  | some s =>
    rw [hty] at ht
    have hs : s = "" := by simpa [optTruthy_some] using ht
    simp [jsOrStr, hs]

/-- C5: when no query was captured but a machine-learning job id was seen,
an accepted parse carries the synthetic query string "ML Job: <id>"
containing that job id, and its type is the machine-learning marker whenever
the captured type was not otherwise set to a non-empty value. -/
theorem parseDetectionRule_ml_synthesis (dp : String → Option String)
    (content filename now : String) (r : DetectionRule)
    (hq : optTruthy (parseState dp content filename now).rule.query = false)
    (hm : (parseState dp content filename now).machineLearningJobId ≠ "")
    (hr : parseDetectionRule dp content filename now = some r) :
    r.query = some ("ML Job: " ++ (parseState dp content filename now).machineLearningJobId) ∧
    (optTruthy (parseState dp content filename now).rule.type = false →
      r.type = some "machine_learning") :=
  postProcess_ml _ r hq hm hr

/-- Witness for C5 at a concrete machine-learning rule file. -/
theorem parseDetectionRule_ml_synthesis_witness :
    (parseDetectionRule dpNone contentML "ml.toml" "T").map DetectionRule.query =
      some (some "ML Job: job1") ∧
    (parseDetectionRule dpNone contentML "ml.toml" "T").map DetectionRule.type =
      some (some "machine_learning") := by
  obtain ⟨r, hr⟩ : ∃ r, parseDetectionRule dpNone contentML "ml.toml" "T" = some r := ⟨_, rfl⟩
  have h := parseDetectionRule_ml_synthesis dpNone contentML "ml.toml" "T" r (by decide)
    (by decide) hr
  rw [hr, Option.map_some', Option.map_some']
  constructor
  · rw [h.1]; rfl
  · rw [h.2 (by decide)]

theorem applyMetadataKey_LU (dp : String → Option String) (v : String) (r : DetectionRule)
    (key value cleanValue : String) :
    applyMetadataKey dp { r with lastUpdated := v } key value cleanValue =
      { applyMetadataKey dp r key value cleanValue with lastUpdated := v } := by
  unfold applyMetadataKey
  split <;> rfl

theorem applyRuleKey_LU (v : String) (r : DetectionRule) (key value cleanValue : String) :
    applyRuleKey { r with lastUpdated := v } key value cleanValue =
      { applyRuleKey r key value cleanValue with lastUpdated := v } := by
  unfold applyRuleKey
  repeat' split
  all_goals rfl

theorem commitMultiline_LU (v : String) (st : ParseState) (line : List Char) :
    commitMultiline { st with rule := { st.rule with lastUpdated := v } } line =
      { commitMultiline st line with
        rule := { (commitMultiline st line).rule with lastUpdated := v } } := by
  simp only [commitMultiline]
  repeat' split
  all_goals simp_all

theorem startMultiline_LU (v : String) (st : ParseState) (line : List Char)
    (prevRaw : List (List Char)) :
    startMultiline { st with rule := { st.rule with lastUpdated := v } } line prevRaw =
      { startMultiline st line prevRaw with
        rule := { (startMultiline st line prevRaw).rule with lastUpdated := v } } := by
  simp only [startMultiline]
  repeat' split
  all_goals simp_all

theorem applyKeyValue_LU (dp : String → Option String) (v : String) (st : ParseState)
    (line : List Char) :
    applyKeyValue dp { st with rule := { st.rule with lastUpdated := v } } line =
      { applyKeyValue dp st line with
        rule := { (applyKeyValue dp st line).rule with lastUpdated := v } } := by
  simp only [applyKeyValue]
  repeat' split
  all_goals simp_all [applyMetadataKey_LU, applyRuleKey_LU]

set_option maxHeartbeats 1000000 in
theorem processLine_LU (dp : String → Option String) (v : String) (st : ParseState)
    (rawLine : List Char) (prevRaw : List (List Char)) :
    processLine dp { st with rule := { st.rule with lastUpdated := v } } rawLine prevRaw =
      { processLine dp st rawLine prevRaw with
        rule := { (processLine dp st rawLine prevRaw).rule with lastUpdated := v } } := by
  simp only [processLine]
  repeat' split
  all_goals first
  | rw [commitMultiline_LU]
  | rw [startMultiline_LU]
  | rw [applyKeyValue_LU]
  | rfl

theorem runLines_LU (dp : String → Option String) (v : String) :
    ∀ (lines : List (List Char)) (st : ParseState) (prev : List (List Char)),
      runLines dp { st with rule := { st.rule with lastUpdated := v } } prev lines =
        { runLines dp st prev lines with
          rule := { (runLines dp st prev lines).rule with lastUpdated := v } } := by
  intro lines
  induction lines with
  | nil => intro st prev; rfl
  | cons l rest ih =>
    intro st prev
    simp only [runLines]
    rw [processLine_LU, ih]

theorem mlSynth_LU (v : String) (st : ParseState) :
    mlSynth { st with rule := { st.rule with lastUpdated := v } } =
      { mlSynth st with lastUpdated := v } := by
  simp only [mlSynth]
  repeat' split
  all_goals simp_all

theorem withRF_LU (v ml : String) (r : DetectionRule) :
    withRequiredFields ml { r with lastUpdated := v } =
      { withRequiredFields ml r with lastUpdated := v } := by
  simp only [withRequiredFields]
  repeat' split
  all_goals simp_all

theorem validateRule_LU (v ml : String) (r : DetectionRule) :
    validateRule ml { r with lastUpdated := v } =
      (validateRule ml r).map (fun x => { x with lastUpdated := v }) := by
  simp only [validateRule]
  repeat' split
  all_goals simp_all

theorem postProcess_LU (v : String) (st : ParseState) :
    postProcess { st with rule := { st.rule with lastUpdated := v } } =
      (postProcess st).map (fun x => { x with lastUpdated := v }) := by
  unfold postProcess
  rw [show ({ st with rule := { st.rule with lastUpdated := v } } : ParseState).machineLearningJobId
      = st.machineLearningJobId from rfl]
  rw [mlSynth_LU, withRF_LU, validateRule_LU]

/-- C3 (amended): `parseDetectionRule` is deterministic given the raw text,
the filename, the host date parser and the clock reading taken during the
call, and the clock reading influences only the `lastUpdated` field: erasing
`lastUpdated`, two parses of the same text and filename at different clock
readings are equal. -/
theorem parseDetectionRule_clock_only_lastUpdated (dp : String → Option String)
    (content filename n1 n2 : String) :
    (parseDetectionRule dp content filename n1).map eraseLastUpdated =
      (parseDetectionRule dp content filename n2).map eraseLastUpdated := by
  have key : ∀ n : String, parseDetectionRule dp content filename n =
      (parseDetectionRule dp content filename "").map (fun r => { r with lastUpdated := n }) := by
    intro n
    have h0 : initState filename n =
        { initState filename "" with
          rule := { (initState filename "").rule with lastUpdated := n } } := rfl
    show postProcess (runLines dp (initState filename n) [] (jsSplitChar '\n' content.data)) = _
    rw [h0, runLines_LU, postProcess_LU]
    rfl
  rw [key n1, key n2, Option.map_map, Option.map_map]
  congr 1

/-- C3 counterexample: the same raw text and filename parsed at two different
clock readings yield entities that are not equal (their ingestion timestamps
differ), so parse is not a pure function of its two arguments alone. -/
theorem parseDetectionRule_not_pure_cex :
    parseDetectionRule dpNone contentNQ "x.toml" "A" ≠
      parseDetectionRule dpNone contentNQ "x.toml" "B" := by
  decide

theorem isWordChar_not_ws (c : Char) (h : isWordChar c = true) : c.isWhitespace = false := by
  cases hw : c.isWhitespace
  · rfl
  · exfalso
    simp only [Char.isWhitespace, Bool.or_eq_true, decide_eq_true_eq] at hw
    rcases hw with ((rfl | rfl) | rfl) | rfl <;> exact absurd h (by decide)

theorem isLowerUnd_not_ws (c : Char) (h : isLowerUnd c = true) : c.isWhitespace = false := by
  cases hw : c.isWhitespace
  · rfl
  · exfalso
    simp only [Char.isWhitespace, Bool.or_eq_true, decide_eq_true_eq] at hw
    rcases hw with ((rfl | rfl) | rfl) | rfl <;> exact absurd h (by decide)

theorem dotGroups_chars : ∀ (fuel : Nat) (l : List Char) (c : Char),
    c ∈ (dotGroups fuel l).1 → isWordChar c = true ∨ c = '.' := by
  intro fuel
  induction fuel with
  | zero => intro l c h; simp [dotGroups] at h
  | succ n ih =>
    intro l c h
    rcases l with _ | ⟨a, _ | ⟨d, t⟩⟩
    · simp [dotGroups] at h
    · simp [dotGroups] at h
    · by_cases ha : a = '.'
      · subst ha
        rw [dotGroups.eq_2] at h
        split at h
        · simp only [List.mem_cons, List.mem_append] at h
          rcases h with h | h | h
          · exact Or.inr h
          · exact Or.inl (List.mem_takeWhile_imp h)
          · exact ih _ c h
        · simp at h
      · simp [dotGroups.eq_def, ha] at h

theorem scanDotted_chars : ∀ (fuel : Nat) (l m : List Char),
    m ∈ scanDotted fuel l → ∀ c ∈ m, isWordChar c = true ∨ c = '.' := by
  intro fuel
  induction fuel with
  | zero => intro l m h; simp [scanDotted] at h
  | succ n ih =>
    intro l m h
    rcases l with _ | ⟨a, t⟩
    · simp [scanDotted] at h
    · simp only [scanDotted] at h
      split at h
      · split at h
        · split at h
          · rcases List.mem_cons.mp h with h | h
            · intro c hc
              subst h
              rcases List.mem_append.mp hc with h2 | h2
              · exact Or.inl (List.mem_takeWhile_imp h2)
              · exact dotGroups_chars _ _ c h2
            · exact ih _ m h
          · exact ih _ m h
        · exact ih _ m h
      · exact ih _ m h

theorem scanColon_chars : ∀ (fuel : Nat) (b : Bool) (l m : List Char),
    m ∈ scanColon fuel b l → ∀ c ∈ m, isLowerUnd c = true ∨ c = ':' := by
  intro fuel
  induction fuel with
  | zero => intro b l m h; simp [scanColon] at h
  | succ n ih =>
    intro b l m h
    rcases l with _ | ⟨a, t⟩
    · simp [scanColon] at h
    · simp only [scanColon] at h
      split at h
      · split at h
        · rcases List.mem_cons.mp h with h | h
          · intro c hc
            subst h
            rcases List.mem_append.mp hc with h2 | h2
            · exact Or.inl (List.mem_takeWhile_imp h2)
            · simp only [List.mem_singleton] at h2
              exact Or.inr h2
          · exact ih _ _ m h
        · exact ih _ _ m h
      · exact ih _ _ m h

theorem removeFirstSub_subset (pat : List Char) :
    ∀ (l : List Char) (c : Char), c ∈ removeFirstSub pat l → c ∈ l := by
  intro l
  induction l with
  | nil => intro c h; simp [removeFirstSub] at h
  | cons a t ih =>
    intro c h
    rw [removeFirstSub] at h
    split at h
    · exact List.mem_of_mem_drop h
    · rcases List.mem_cons.mp h with h | h
      · exact h ▸ List.mem_cons_self a t
      · exact List.mem_cons_of_mem a (ih c h)

theorem trimChars_subset (l : List Char) (c : Char) (h : c ∈ trimChars l) : c ∈ l := by
  unfold trimChars at h
  rw [List.mem_reverse] at h
  have h2 := List.dropWhile_subset _ h
  rw [List.mem_reverse] at h2
  exact List.dropWhile_subset _ h2

theorem addFieldMatch_mem (acc : List (List Char)) (m x : List Char)
    (h : x ∈ addFieldMatch acc m) :
    x ∈ acc ∨ (x = trimChars (removeFirstSub [':'] m) ∧ x.length > 2 ∧
      (x.contains ' ') = false) := by
  simp only [addFieldMatch] at h
  split at h
  · split at h
    · exact Or.inl h
    · rcases List.mem_append.mp h with h2 | h2
      · exact Or.inl h2
      · simp only [List.mem_singleton] at h2
        subst h2
        rename_i hcond _
        simp only [Bool.and_eq_true, Bool.not_eq_true', decide_eq_true_eq] at hcond
        exact Or.inr ⟨rfl, hcond.1.2, hcond.2⟩
  · exact Or.inl h

theorem foldl_addFieldMatch_mem :
    ∀ (ms acc : List (List Char)) (x : List Char), x ∈ ms.foldl addFieldMatch acc →
      x ∈ acc ∨ ∃ m ∈ ms, x = trimChars (removeFirstSub [':'] m) ∧ x.length > 2 ∧
        (x.contains ' ') = false := by
  intro ms
  induction ms with
  | nil => intro acc x h; exact Or.inl h
  | cons m rest ih =>
    intro acc x h
    simp only [List.foldl_cons] at h
    rcases ih _ x h with h2 | ⟨mm, hmm, hx⟩
    · rcases addFieldMatch_mem _ _ _ h2 with h3 | h3
      · exact Or.inl h3
      · exact Or.inr ⟨m, List.mem_cons_self m rest, h3⟩
    · exact Or.inr ⟨mm, List.mem_cons_of_mem m hmm, hx⟩

/-- C7: for every query text, field extraction returns at most 20 entries,
every entry has length at least 3, and no entry contains any whitespace
character. -/
theorem extractFieldsFromQuery_spec (q : String) :
    (extractFieldsFromQuery q).length ≤ 20 ∧
    ∀ f ∈ extractFieldsFromQuery q, 3 ≤ f.length ∧ ∀ c ∈ f.data, c.isWhitespace = false := by
  constructor
  · unfold extractFieldsFromQuery
    rw [List.length_map]
    exact List.length_take_le 20 _
  · intro f hf
    unfold extractFieldsFromQuery at hf
    rcases List.mem_map.mp hf with ⟨m, hm, rfl⟩
    have hm2 := List.mem_of_mem_take hm
    rcases foldl_addFieldMatch_mem _ _ _ hm2 with h | ⟨mm, hmm, heq, hlen, _⟩
    · simp at h
    · constructor
      · show 3 ≤ m.length
        omega
      · intro c hc
        have hc2 : c ∈ m := hc
        have hcm : c ∈ mm := removeFirstSub_subset _ _ c (trimChars_subset _ c (heq ▸ hc2))
        rcases List.mem_append.mp hmm with h1 | h1
        · rcases scanDotted_chars _ _ _ h1 c hcm with h2 | h2
          · exact isWordChar_not_ws c h2
          · subst h2; rfl
        · rcases scanColon_chars _ _ _ _ h1 c hcm with h2 | h2
          · exact isLowerUnd_not_ws c h2
          · subst h2; rfl

/-- Witness for C7 at a concrete query. -/
theorem extractFieldsFromQuery_spec_witness :
    (extractFieldsFromQuery "a.bc").length ≤ 20 ∧
    (3 ≤ ("a.bc" : String).length ∧
      ∀ c ∈ ("a.bc" : String).data, c.isWhitespace = false) :=
  ⟨(extractFieldsFromQuery_spec "a.bc").1,
   (extractFieldsFromQuery_spec "a.bc").2 "a.bc" (by decide)⟩

theorem contains_of_mem {l : List Char} {c : Char} (h : c ∈ l) : l.contains c = true := by
  simpa [List.contains, List.elem_iff] using h

theorem go_append_no_sep (sep : Char) :
    ∀ (a : List Char), sep ∉ a → ∀ (l acc : List Char),
      jsSplitCharGo sep (a ++ l) acc = jsSplitCharGo sep l (a.reverse ++ acc) := by
  intro a
  induction a with
  | nil => intro _ l acc; simp
  | cons x xs ih =>
    intro hns l acc
    have hx : ¬x = sep := fun e => hns (e ▸ List.mem_cons_self x xs)
    have hxs : sep ∉ xs := fun e => hns (List.mem_cons_of_mem x e)
    simp only [List.cons_append, jsSplitCharGo, if_neg hx]
    show jsSplitCharGo sep (xs ++ l) (x :: acc) = jsSplitCharGo sep l ((x :: xs).reverse ++ acc)
    rw [ih hxs l (x :: acc)]
    simp [List.append_assoc]

theorem go_no_sep (sep : Char) (a : List Char) (h : sep ∉ a) (acc : List Char) :
    jsSplitCharGo sep a acc = [acc.reverse ++ a] := by
  have h2 := go_append_no_sep sep a h [] acc
  rw [List.append_nil] at h2
  rw [h2]
  show [(a.reverse ++ acc).reverse] = [acc.reverse ++ a]
  rw [List.reverse_append, List.reverse_reverse]

theorem dropWhile_append_of_all {p : Char → Bool} {a : List Char}
    (h : ∀ c ∈ a, p c = true) (b : List Char) :
    List.dropWhile p (a ++ b) = List.dropWhile p b := by
  rw [List.dropWhile_append]
  rw [List.dropWhile_eq_nil_iff.mpr h]
  simp

theorem trimChars_eq_nil_iff (l : List Char) :
    trimChars l = [] ↔ ∀ c ∈ l, c.isWhitespace = true := by
  unfold trimChars
  constructor
  · intro h c hc
    have h2 : List.dropWhile Char.isWhitespace
        ((List.dropWhile Char.isWhitespace l).reverse) = [] :=
      List.reverse_eq_nil_iff.mp h
    have hall := List.dropWhile_eq_nil_iff.mp h2
    by_cases hmem : c ∈ List.dropWhile Char.isWhitespace l
    · exact hall c (List.mem_reverse.mpr hmem)
    · have hsplit := List.takeWhile_append_dropWhile Char.isWhitespace l
      rw [← hsplit] at hc
      rcases List.mem_append.mp hc with h4 | h4
      · exact List.mem_takeWhile_imp h4
      · exact absurd h4 hmem
  · intro h
    have h1 : List.dropWhile Char.isWhitespace l = [] := List.dropWhile_eq_nil_iff.mpr h
    simp [h1]

theorem stripQuoteEnds_quoted (x : List Char) :
    stripQuoteEnds ('"' :: (x ++ ['"'])) = x := by
  have h1 : stripQuoteEnds ('"' :: (x ++ ['"'])) =
      (match (x ++ ['"']).getLast? with
       | none => x ++ ['"']
       | some c => if isQuoteChar c then (x ++ ['"']).dropLast else x ++ ['"']) := by
    simp [stripQuoteEnds, isQuoteChar]
  rw [h1, List.getLast?_concat]
  show (if isQuoteChar '"' = true then (x ++ ['"']).dropLast else x ++ ['"']) = x
  rw [if_pos (by decide)]
  exact List.dropLast_concat

theorem trimChars_ws_quoted (ws x : List Char) (hws : ∀ c ∈ ws, c.isWhitespace = true) :
    trimChars (ws ++ '"' :: (x ++ ['"'])) = '"' :: (x ++ ['"']) := by
  unfold trimChars
  rw [dropWhile_append_of_all hws]
  rw [List.dropWhile_cons]
  rw [if_neg (by decide)]
  have hrev : ('"' :: (x ++ ['"'])).reverse = '"' :: (x.reverse ++ ['"']) := by
    simp
  rw [hrev]
  rw [List.dropWhile_cons]
  rw [if_neg (by decide)]
  rw [← hrev, List.reverse_reverse]

theorem process_ws_quoted (ws : List Char) (x : String)
    (hws : ∀ c ∈ ws, c.isWhitespace = true) :
    stripQuoteEnds (trimChars (ws ++ quoteChars x)) = x.data := by
  have hq : quoteChars x = '"' :: (x.data ++ ['"']) := rfl
  rw [hq, trimChars_ws_quoted ws x.data hws, stripQuoteEnds_quoted]

theorem comma_not_mem_quoteChars (x : String) (hx : ',' ∉ x.data) : ',' ∉ quoteChars x := by
  intro h
  rcases List.mem_cons.mp h with h | h
  · exact absurd h (by decide)
  · rcases List.mem_append.mp h with h | h
    · exact hx h
    · exact absurd (List.mem_singleton.mp h) (by decide)

theorem splitGo_joinQuoted :
    ∀ (xs : List String), xs ≠ [] → (∀ x ∈ xs, ',' ∉ x.data) →
      ∀ (ws : List Char), (∀ c ∈ ws, c.isWhitespace = true) →
        (jsSplitCharGo ',' (joinQuoted xs) ws).map
            (fun item => stripQuoteEnds (trimChars item)) =
          xs.map (fun x => x.data) := by
  intro xs
  induction xs with
  | nil => intro h; exact absurd rfl h
  | cons x rest ih =>
    intro _ hcf ws hws
    cases rest with
    | nil =>
      rw [show joinQuoted [x] = quoteChars x from rfl]
      rw [go_no_sep ',' (quoteChars x)
        (comma_not_mem_quoteChars x (hcf x (List.mem_cons_self x []))) ws]
      rw [List.map_singleton, List.map_singleton]
      rw [process_ws_quoted _ x (fun c hc => hws c (List.mem_reverse.mp hc))]
    | cons y t =>
      rw [show joinQuoted (x :: y :: t) =
        quoteChars x ++ ',' :: ' ' :: joinQuoted (y :: t) from rfl]
      rw [go_append_no_sep ',' (quoteChars x)
        (comma_not_mem_quoteChars x (hcf x (List.mem_cons_self x (y :: t)))) _ ws]
      rw [show jsSplitCharGo ',' (',' :: ' ' :: joinQuoted (y :: t))
          ((quoteChars x).reverse ++ ws) =
        ((quoteChars x).reverse ++ ws).reverse ::
          jsSplitCharGo ',' (' ' :: joinQuoted (y :: t)) [] from by simp [jsSplitCharGo]]
      rw [show jsSplitCharGo ',' (' ' :: joinQuoted (y :: t)) ([] : List Char) =
        jsSplitCharGo ',' (joinQuoted (y :: t)) [' '] from by simp [jsSplitCharGo]]
      rw [List.map_cons, List.map_cons]
      rw [ih (by simp) (fun z hz => hcf z (List.mem_cons_of_mem x hz)) [' ']
        (fun c hc => by have := List.mem_singleton.mp hc; subst this; rfl)]
      congr 1
      rw [List.reverse_append, List.reverse_reverse]
      exact process_ws_quoted _ x (fun c hc => hws c (List.mem_reverse.mp hc))

theorem strMk_data (s : String) : String.mk s.data = s := by
  cases s
  rfl

theorem renderArrayLit_data (xs : List String) :
    (renderArrayLit xs).data = '[' :: (joinQuoted xs ++ [']']) := rfl

theorem quote_mem_joinQuoted (x : String) (rest : List String) :
    '"' ∈ joinQuoted (x :: rest) := by
  cases rest <;> simp [joinQuoted, quoteChars]

theorem parseArrayValue_bracket (v : String) (hne : ¬(v = ""))
    (h1 : v.data.contains '[' = true) (h2 : v.data.contains ']' = true) :
    parseArrayValue v =
      (if (trimChars (jsSubstring v.data (idxOfCh '[' v.data + 1) (lastIdxOfCh ']' v.data))).isEmpty
       then []
       else (((jsSplitChar ','
            (jsSubstring v.data (idxOfCh '[' v.data + 1) (lastIdxOfCh ']' v.data))).map
              fun item => stripQuoteEnds (trimChars item)).filter
          (fun item => item.length > 0)).map String.mk) := by
  unfold parseArrayValue
  rw [if_neg hne, if_pos (by rw [h1, h2]; rfl)]

theorem parseArrayValue_render (xs : List String)
    (hx : ∀ x ∈ xs, x ≠ "" ∧ ',' ∉ x.data) :
    parseArrayValue (renderArrayLit xs) = xs := by
  cases xs with
  | nil => rfl
  | cons x rest =>
    have hne : ¬(renderArrayLit (x :: rest) = "") := by
      intro h
      have h2 := congrArg String.data h
      rw [renderArrayLit_data] at h2
      exact absurd h2 (by simp)
    have hc1 : (renderArrayLit (x :: rest)).data.contains '[' = true := by
      rw [renderArrayLit_data]
      exact contains_of_mem (List.mem_cons_self _ _)
    have hc2 : (renderArrayLit (x :: rest)).data.contains ']' = true := by
      rw [renderArrayLit_data]
      exact contains_of_mem (List.mem_cons_of_mem _
        (List.mem_append.mpr (Or.inr (List.mem_singleton.mpr rfl))))
    rw [parseArrayValue_bracket _ hne hc1 hc2]
    have hidx : idxOfCh '[' (renderArrayLit (x :: rest)).data = 0 := by
      rw [renderArrayLit_data]
      simp [idxOfCh]
    have hlast : lastIdxOfCh ']' (renderArrayLit (x :: rest)).data =
        (joinQuoted (x :: rest)).length + 1 := by
      unfold lastIdxOfCh
      rw [renderArrayLit_data]
      rw [show ('[' :: (joinQuoted (x :: rest) ++ [']'])).reverse =
        ']' :: ((joinQuoted (x :: rest)).reverse ++ ['[']) from by simp]
      simp [idxOfCh]
    have hsub : jsSubstring (renderArrayLit (x :: rest)).data 1
        ((joinQuoted (x :: rest)).length + 1) = joinQuoted (x :: rest) := by
      rw [renderArrayLit_data]
      unfold jsSubstring
      have hlen : ('[' :: (joinQuoted (x :: rest) ++ [']'])).length =
          (joinQuoted (x :: rest)).length + 2 := by simp
      have e1 : min 1 ((joinQuoted (x :: rest)).length + 2) = 1 := by omega
      have e2 : min ((joinQuoted (x :: rest)).length + 1)
          ((joinQuoted (x :: rest)).length + 2) = (joinQuoted (x :: rest)).length + 1 := by omega
      have e3 : min 1 ((joinQuoted (x :: rest)).length + 1) = 1 := by omega
      have e4 : max 1 ((joinQuoted (x :: rest)).length + 1) =
          (joinQuoted (x :: rest)).length + 1 := by omega
      have e5 : (joinQuoted (x :: rest)).length + 1 - 1 = (joinQuoted (x :: rest)).length := by
        omega
      simp only [hlen, e1, e2, e3, e4, e5, List.drop_succ_cons, List.drop_zero]
      exact List.take_left _ _
    rw [hidx, hlast]
    rw [show (0 : Nat) + 1 = 1 from rfl]
    rw [hsub]
    have htrim : (trimChars (joinQuoted (x :: rest))).isEmpty = false := by
      cases htr : (trimChars (joinQuoted (x :: rest))).isEmpty
      · rfl
      · exfalso
        have hnil := List.isEmpty_iff.mp htr
        have hws := (trimChars_eq_nil_iff _).mp hnil
        have := hws '"' (quote_mem_joinQuoted x rest)
        exact absurd this (by decide)
    rw [if_neg (by rw [htrim]; exact Bool.false_ne_true)]
    rw [show jsSplitChar ',' (joinQuoted (x :: rest)) =
      jsSplitCharGo ',' (joinQuoted (x :: rest)) [] from rfl]
    rw [splitGo_joinQuoted (x :: rest) (by simp) (fun z hz => (hx z hz).2) []
      (fun c hc => absurd hc (List.not_mem_nil c))]
    have hfilter : (((x :: rest).map (fun z => z.data)).filter
        (fun item => item.length > 0)) = (x :: rest).map (fun z => z.data) := by
      rw [List.filter_eq_self]
      intro a ha
      rcases List.mem_map.mp ha with ⟨z, hz, rfl⟩
      have hzne := (hx z hz).1
      have hzd : z.data ≠ [] := by
        intro h0
        apply hzne
        rw [← strMk_data z, h0]
      simp only [gt_iff_lt, decide_eq_true_eq]
      exact List.length_pos.mpr hzd
    rw [hfilter]
    rw [List.map_map]
    have : (String.mk ∘ fun z : String => z.data) = id := by
      funext z
      exact strMk_data z
    rw [this, List.map_id]

theorem jsSubstring_wrap (mid : List Char) (a b : Char) :
    jsSubstring (a :: (mid ++ [b])) 1 (mid.length + 1) = mid := by
  unfold jsSubstring
  have hlen : (a :: (mid ++ [b])).length = mid.length + 2 := by simp
  have e1 : min 1 (mid.length + 2) = 1 := by omega
  have e2 : min (mid.length + 1) (mid.length + 2) = mid.length + 1 := by omega
  have e3 : min 1 (mid.length + 1) = 1 := by omega
  have e4 : max 1 (mid.length + 1) = mid.length + 1 := by omega
  have e5 : mid.length + 1 - 1 = mid.length := by omega
  simp only [hlen, e1, e2, e3, e4, e5, List.drop_succ_cons, List.drop_zero]
  exact List.take_left _ _

theorem parseArrayValue_ws_bracket (w : String)
    (hws : ∀ c ∈ w.data, c.isWhitespace = true) :
    parseArrayValue (String.mk ('[' :: (w.data ++ [']']))) = [] := by
  have hdata : (String.mk ('[' :: (w.data ++ [']']))).data = '[' :: (w.data ++ [']']) := rfl
  have hne : ¬(String.mk ('[' :: (w.data ++ [']'])) = "") := by
    intro h
    have h2 := congrArg String.data h
    rw [hdata] at h2
    exact absurd h2 (by simp)
  have hc1 : (String.mk ('[' :: (w.data ++ [']']))).data.contains '[' = true := by
    rw [hdata]
    exact contains_of_mem (List.mem_cons_self _ _)
  have hc2 : (String.mk ('[' :: (w.data ++ [']']))).data.contains ']' = true := by
    rw [hdata]
    exact contains_of_mem (List.mem_cons_of_mem _
      (List.mem_append.mpr (Or.inr (List.mem_singleton.mpr rfl))))
  rw [parseArrayValue_bracket _ hne hc1 hc2]
  have hidx : idxOfCh '[' (String.mk ('[' :: (w.data ++ [']']))).data = 0 := by
    rw [hdata]
    simp [idxOfCh]
  have hlast : lastIdxOfCh ']' (String.mk ('[' :: (w.data ++ [']']))).data =
      w.data.length + 1 := by
    unfold lastIdxOfCh
    rw [hdata]
    rw [show ('[' :: (w.data ++ [']'])).reverse = ']' :: (w.data.reverse ++ ['[']) from by simp]
    simp [idxOfCh]
  rw [hidx, hlast, show (0 : Nat) + 1 = 1 from rfl, hdata, jsSubstring_wrap]
  rw [if_pos]
  rw [List.isEmpty_iff]
  exact (trimChars_eq_nil_iff _).mpr hws

theorem contains_eq_false_of_not_mem {l : List Char} {c : Char} (h : c ∉ l) :
    l.contains c = false := by
  cases hb : l.contains c
  · rfl
  · exact absurd (List.elem_iff.mp hb) h

theorem parseArrayValue_bare (s : String) (hne : s ≠ "") (hnb : '[' ∉ s.data) :
    parseArrayValue s = [String.mk (stripQuoteEnds s.data)] := by
  unfold parseArrayValue
  rw [if_neg hne]
  rw [if_neg (by rw [contains_eq_false_of_not_mem hnb]; simp)]

theorem stripQuoteEnds_id (l : List Char)
    (hhead : ∀ c, l.head? = some c → isQuoteChar c = false)
    (hlast : ∀ c, l.getLast? = some c → isQuoteChar c = false) :
    stripQuoteEnds l = l := by
  cases l with
  | nil => rfl
  | cons c t =>
    have h1 : isQuoteChar c = false := hhead c rfl
    have hstep : stripQuoteEnds (c :: t) =
        (match (c :: t).getLast? with
         | none => c :: t
         | some d => if isQuoteChar d = true then (c :: t).dropLast else c :: t) := by
      simp [stripQuoteEnds, h1]
    rw [hstep]
    cases hg : (c :: t).getLast? with
    | none => rfl
    | some d =>
      show (if isQuoteChar d = true then (c :: t).dropLast else c :: t) = c :: t
      rw [if_neg (by rw [hlast d hg]; simp)]

/-- C6 (amended): array-value parsing behaves as claimed for bracketed
literals — a canonical bracketed list of non-empty comma-free elements parses
back to exactly those elements (quotes stripped, elements trimmed),
whitespace-only bracket content yields the empty sequence, and empty elements
are dropped — but a bare bracket-free scalar is only quote-stripped, NOT
additionally trimmed: it yields the single-element sequence of the
quote-stripped value as-is, which equals the trimmed value exactly when the
scalar carries no surrounding whitespace (callers always pass pre-trimmed
values). -/
theorem parseArrayValue_amended :
    (∀ xs : List String, (∀ x ∈ xs, x ≠ "" ∧ ',' ∉ x.data) →
      parseArrayValue (renderArrayLit xs) = xs) ∧
    (∀ w : String, (∀ c ∈ w.data, c.isWhitespace = true) →
      parseArrayValue (String.mk ('[' :: (w.data ++ [']']))) = []) ∧
    (∀ s : String, s ≠ "" → '[' ∉ s.data → ']' ∉ s.data →
      parseArrayValue s = [String.mk (stripQuoteEnds s.data)]) ∧
    (∀ s : String, s ≠ "" → '[' ∉ s.data → ']' ∉ s.data → trimChars s.data = s.data →
      (∀ c, s.data.head? = some c → isQuoteChar c = false) →
      (∀ c, s.data.getLast? = some c → isQuoteChar c = false) →
      parseArrayValue s = [s]) ∧
    parseArrayValue "[\"a\", , \"b\"]" = ["a", "b"] := by
  refine ⟨parseArrayValue_render, parseArrayValue_ws_bracket, ?_, ?_, rfl⟩
  · intro s h1 h2 _
    exact parseArrayValue_bare s h1 h2
  · intro s h1 h2 _ _ hh hl
    rw [parseArrayValue_bare s h1 h2, stripQuoteEnds_id _ hh hl, strMk_data]

/-- Witness for the amended C6 at concrete inputs for each clause. -/
theorem parseArrayValue_amended_witness :
    parseArrayValue (renderArrayLit ["a", "b"]) = ["a", "b"] ∧
    parseArrayValue (String.mk ('[' :: ((" " : String).data ++ [']']))) = [] ∧
    parseArrayValue " x " = [String.mk (stripQuoteEnds " x ".data)] ∧
    parseArrayValue "bare" = ["bare"] :=
  ⟨parseArrayValue_amended.1 ["a", "b"] (by decide),
   parseArrayValue_amended.2.1 " " (by decide),
   parseArrayValue_amended.2.2.1 " x " (by decide) (by decide) (by decide),
   parseArrayValue_amended.2.2.2.1 "bare" (by decide) (by decide) (by decide) (by decide)
     (fun c hc => by cases hc; rfl) (fun c hc => by cases hc; rfl)⟩

/-- C6 counterexample: a bare unquoted scalar with surrounding whitespace is
returned untrimmed, so the result does not contain the trimmed value. -/
theorem parseArrayValue_bare_scalar_cex :
    parseArrayValue " x " = [" x "] ∧ String.mk (trimChars " x ".data) = "x" ∧
    parseArrayValue " x " ≠ ["x"] := by
  refine ⟨rfl, rfl, ?_⟩
  decide
